import Mathlib

/-!
Shallow embedding of the Michael and Scott lockfree queue from
src/src/lockfree_queue.cpp (class pe::LockfreeQueue).

Modelling choices:
- Nodes live in an explicit heap, a list of nodes addressed by consecutive
  ids; `new Node` allocates the next id.  Retired nodes stay in the heap
  (physical reclamation belongs to the external hazard pointer context);
  the queue only logs RetireHazard calls in `retired`.
- `Pointer` is the 16-byte tagged pointer: `m_ptr` is an optional node id
  (`none` models nullptr) and `m_count` the tag.  `ptrEq` and `ptrNe`
  embed `Pointer::operator==` and `Pointer::operator!=`.
- The tag field is a std::uintptr_t, whose addition wraps at 2^64 on the
  platform the double-quad-word atomic implies.  The structural theorems
  (traces, retire logs, list shape, pointer targets) do not depend on tag
  magnitude and use `enqueue` / `dequeue`, in which `m_count` is carried
  as an unbounded Nat; the theorems about tag arithmetic itself use
  `wEnqueue` / `wDequeue`, the same code with every `m_count + 1` taken
  mod `uintptrSize`, which is where the wrap at the maximal tag shows.
- Every atomic slot (`m_head`, `m_tail`, a node `m_next`) is read and
  CASed through `readSlot` / `doCas`; `doCas` also emits a `CasEvent`
  recording the replaced value, the expected value, the installed value
  and whether the CAS succeeded.  Operations return the list of events
  they executed.
- The unbounded CAS retry loops are embedded with an explicit fuel
  argument; exhausted fuel, or a dereference of an invalid pointer,
  yields `none` (distinct from the `Option T` that `Dequeue` itself
  returns).
- `AddHazard` publishes a pointer and its guard unpublishes it on every
  exit path; it has no effect observable in a single-thread execution of
  the algorithm, so it leaves no trace in the state.  The validation
  loads that follow it (lines 87, 113, 120 of the source) are embedded
  faithfully.
-/

namespace LFQ

/-- Tagged pointer: struct Pointer { Node *m_ptr; uintptr_t m_count; }. -/
structure Pointer where
  m_ptr : Option Nat
  m_count : Nat
deriving DecidableEq, Repr

/-- Pointer::operator== : (m_ptr == rhs.m_ptr) && (m_count == rhs.m_count). -/
def ptrEq (p rhs : Pointer) : Bool :=
  (p.m_ptr == rhs.m_ptr) && (p.m_count == rhs.m_count)

/-- Pointer::operator!= : !operator==(rhs). -/
def ptrNe (p rhs : Pointer) : Bool :=
  ! ptrEq p rhs

/-- struct Node { T m_value; AtomicPointer m_next; }. -/
structure Node (T : Type) where
  m_value : T
  m_next : Pointer
deriving DecidableEq, Repr

/-- The atomic slots of the queue: m_head, m_tail, and each node's m_next. -/
inductive Slot where
  | head : Slot
  | tail : Slot
  | next : Nat → Slot
deriving DecidableEq, Repr

/-- One execution of DoubleQuadWordAtomic::CompareExchange: which slot,
the value found in the slot, the expected value, the desired value, and
whether the exchange succeeded. -/
structure CasEvent where
  slot : Slot
  prior : Pointer
  expected : Pointer
  desired : Pointer
  success : Bool
deriving DecidableEq, Repr

/-- The queue state: the two atomic tagged pointers, the node heap, and
the log of node ids passed to HPContext::RetireHazard, in order. -/
structure QueueState (T : Type) where
  heap : List (Node T)
  m_head : Pointer
  m_tail : Pointer
  retired : List Nat
deriving DecidableEq, Repr

/-- Atomic load of a slot (none when the slot names an invalid node). -/
def readSlot {T : Type} (s : QueueState T) : Slot → Option Pointer
  | Slot.head => some s.m_head
  | Slot.tail => some s.m_tail
  | Slot.next n => (s.heap[n]?).map Node.m_next

/-- Store into a slot (no-op on an invalid node id). -/
def writeSlot {T : Type} (s : QueueState T) : Slot → Pointer → QueueState T
  | Slot.head, p => { s with m_head := p }
  | Slot.tail, p => { s with m_tail := p }
  | Slot.next n, p =>
    { s with heap :=
        match s.heap[n]? with
        | none => s.heap
        | some nd => s.heap.set n { nd with m_next := p } }

/-- DoubleQuadWordAtomic::CompareExchange over a slot: compares the
current 16-byte value with `expected` as one indivisible unit, installs
`desired` on success, and reports the attempt as a `CasEvent`. -/
def doCas {T : Type} (s : QueueState T) (sl : Slot) (expected desired : Pointer) :
    Option (QueueState T × Bool × CasEvent) :=
  match readSlot s sl with
  | none => none
  | some cur =>
    if ptrEq cur expected then
      some (writeSlot s sl desired, true,
            ⟨sl, cur, expected, desired, true⟩)
    else
      some (s, false, ⟨sl, cur, expected, desired, false⟩)

/-- LockfreeQueue(Node *head) through LockfreeQueue(): one freshly
allocated sentinel node `new Node{}` (default value, next = {nullptr,0}),
with m_head = m_tail = {sentinel, 0}. -/
def mkQueue {T : Type} (d : T) : QueueState T :=
  { heap := [⟨d, ⟨none, 0⟩⟩]
    m_head := ⟨some 0, 0⟩
    m_tail := ⟨some 0, 0⟩
    retired := [] }

/-- The while(true) loop of Enqueue (source lines 83-99).  `node` is the
id of the node allocated at line 80.  Returns the state, the `tail`
snapshot live when the loop breaks, and the CAS events executed. -/
def enqueueLoop {T : Type} : Nat → QueueState T → Nat →
    Option (QueueState T × Pointer × List CasEvent)
  | 0, _, _ => none
  | fuel + 1, s, node =>
    let tail := s.m_tail
    -- AddHazard(0, tail.m_ptr); if(tail != m_tail.Load()) continue;
    if ptrNe tail s.m_tail then enqueueLoop fuel s node
    else
      match tail.m_ptr with
      | none => none
      | some ti =>
        match s.heap[ti]? with
        | none => none
        | some tailNode =>
          let next := tailNode.m_next
          match next.m_ptr with
          | none =>
            -- tail.m_ptr->m_next.CompareExchange(next, {node, next.m_count + 1})
            match doCas s (Slot.next ti) next ⟨some node, next.m_count + 1⟩ with
            | none => none
            | some (s1, ok, e) =>
              if ok then some (s1, tail, [e])
              else
                match enqueueLoop fuel s1 node with
                | none => none
                | some (s2, t, l) => some (s2, t, e :: l)
          | some ni =>
            -- m_tail.CompareExchange(tail, {next.m_ptr, tail.m_count + 1})
            match doCas s Slot.tail tail ⟨some ni, tail.m_count + 1⟩ with
            | none => none
            | some (s1, _, e) =>
              match enqueueLoop fuel s1 node with
              | none => none
              | some (s2, t, l) => some (s2, t, e :: l)

/-- Enqueue (source lines 77-102): allocate `new Node{value, {}}`, run
the linking loop, then the single best-effort
m_tail.CompareExchange(tail, {node, tail.m_count + 1}) of line 100. -/
def enqueue {T : Type} (fuel : Nat) (s : QueueState T) (value : T) :
    Option (QueueState T × List CasEvent) :=
  let node := s.heap.length
  let s1 : QueueState T := { s with heap := s.heap ++ [⟨value, ⟨none, 0⟩⟩] }
  match enqueueLoop fuel s1 node with
  | none => none
  | some (s2, tail, l) =>
    match doCas s2 Slot.tail tail ⟨some node, tail.m_count + 1⟩ with
    | none => none
    | some (s3, _, e) => some (s3, l ++ [e])

/-- The while(true) loop of Dequeue (source lines 109-139).  The third
component is `none` when the loop returned std::nullopt at line 124, and
`some (ret, hi)` when the head CAS of line 136 broke out of the loop with
copied value `ret` and old head id `hi` (to be retired at line 140). -/
def dequeueLoop {T : Type} : Nat → QueueState T →
    Option (QueueState T × List CasEvent × Option (T × Nat))
  | 0, _ => none
  | fuel + 1, s =>
    let head := s.m_head
    -- AddHazard(0, head.m_ptr); if(head != m_head.Load()) continue;
    if ptrNe head s.m_head then dequeueLoop fuel s
    else
      let tail := s.m_tail
      match head.m_ptr with
      | none => none
      | some hi =>
        match s.heap[hi]? with
        | none => none
        | some headNode =>
          let next := headNode.m_next
          -- AddHazard(1, next.m_ptr); if(head != m_head.Load()) continue;
          if ptrNe head s.m_head then dequeueLoop fuel s
          else
            match next.m_ptr with
            | none => some (s, [], none)   -- return std::nullopt;
            | some ni =>
              if head.m_ptr == tail.m_ptr then
                -- m_tail.CompareExchange(tail, {next.m_ptr, tail.m_count + 1}); continue;
                match doCas s Slot.tail tail ⟨some ni, tail.m_count + 1⟩ with
                | none => none
                | some (s1, _, e) =>
                  match dequeueLoop fuel s1 with
                  | none => none
                  | some (s2, l, r) => some (s2, e :: l, r)
              else
                match s.heap[ni]? with
                | none => none
                | some nextNode =>
                  -- ret = next.m_ptr->m_value; (copied before the CAS)
                  let ret := nextNode.m_value
                  -- m_head.CompareExchange(head, {next.m_ptr, head.m_count + 1})
                  match doCas s Slot.head head ⟨some ni, head.m_count + 1⟩ with
                  | none => none
                  | some (s1, ok, e) =>
                    if ok then some (s1, [e], some (ret, hi))
                    else
                      match dequeueLoop fuel s1 with
                      | none => none
                      | some (s2, l, r) => some (s2, e :: l, r)

/-- Dequeue (source lines 104-142): run the loop; when it broke via the
head CAS, RetireHazard(head.m_ptr) the old head and return the copied
value; when it returned at line 124, return the empty optional. -/
def dequeue {T : Type} (fuel : Nat) (s : QueueState T) :
    Option (QueueState T × Option T × List CasEvent) :=
  match dequeueLoop fuel s with
  | none => none
  | some (s1, l, none) => some (s1, none, l)
  | some (s1, l, some (ret, hi)) =>
    some ({ s1 with retired := s1.retired ++ [hi] }, some ret, l)

/-- The destructor body (source lines 69-75):
do { value = Dequeue(); } while(value.has_value()). -/
def drain {T : Type} (dfuel : Nat) : Nat → QueueState T → Option (QueueState T)
  | 0, _ => none
  | fuel + 1, s =>
    match dequeue dfuel s with
    | none => none
    | some (s1, some _, _) => drain dfuel fuel s1
    | some (s1, none, _) => some s1

/-- Enqueue the value 0 K times in a row (each call with loop fuel 2). -/
def enqueueN : Nat → QueueState Nat → Option (QueueState Nat)
  | 0, s => some s
  | k + 1, s =>
    match enqueueN k s with
    | none => none
    | some s1 =>
      match enqueue 2 s1 0 with
      | none => none
      | some (s2, _) => some s2

/-- True when the node after the sentinel is absent, i.e. the queue is
logically empty (head.m_ptr->m_next.m_ptr == nullptr, line 123 test). -/
def headNextIsNull {T : Type} (s : QueueState T) : Bool :=
  match s.m_head.m_ptr with
  | none => false
  | some hi =>
    match s.heap[hi]? with
    | none => false
    | some nd => nd.m_next.m_ptr.isNone

/-- Node id `i` is the last node of the list: it exists and its next
pointer is null. -/
def isLastNode {T : Type} (s : QueueState T) (i : Nat) : Bool :=
  match s.heap[i]? with
  | none => false
  | some nd => nd.m_next.m_ptr.isNone

/-- m_tail lags the true last node by at most one link: it denotes the
last node, or a node whose next is the last node. -/
def tailLagLeOne {T : Type} (s : QueueState T) : Bool :=
  match s.m_tail.m_ptr with
  | none => false
  | some t =>
    isLastNode s t ||
      (match s.heap[t]? with
       | none => false
       | some nd =>
         match nd.m_next.m_ptr with
         | none => false
         | some u => isLastNode s u)

/-- The next pointer held by node i of the canonical heap over vals:
node i points to node i+1 with tag 1 (set by the one successful link CAS
on that slot); the last node's next is {nullptr, 0}. -/
def canonNext {T : Type} (vals : List T) (i : Nat) : Pointer :=
  if i + 1 < vals.length then ⟨some (i + 1), 1⟩ else ⟨none, 0⟩

/-- The node heap reached after the values `vals` (sentinel value first)
have been threaded into a list: node i holds vals[i] and points along
`canonNext`. -/
def canonHeap {T : Type} [Inhabited T] (vals : List T) : List (Node T) :=
  (List.range vals.length).map fun i =>
    ⟨vals.getD i default, canonNext vals i⟩

/-- The queue state reached, sequentially, after the enqueues that built
`vals` and `h` dequeues: head = {h, h}, tail = the last node with tag
vals.length - 1, nodes 0..h-1 retired in order. -/
def canonState {T : Type} [Inhabited T] (vals : List T) (h : Nat) : QueueState T :=
  { heap := canonHeap vals
    m_head := ⟨some h, h⟩
    m_tail := ⟨some (vals.length - 1), vals.length - 1⟩
    retired := List.range h }

/-- A state whose best-effort tail CAS was lost: like `canonState` but
m_tail still denotes the second-to-last node, with an arbitrary tag c. -/
def canonLagState {T : Type} [Inhabited T] (vals : List T) (h c : Nat) : QueueState T :=
  { canonState vals h with m_tail := ⟨some (vals.length - 2), c⟩ }

/-- The states reachable from a fresh queue by complete sequential
Enqueue and Dequeue calls (any fuel that lets the call finish). -/
inductive SeqReachable {T : Type} [Inhabited T] : QueueState T → Prop where
  | init : SeqReachable (mkQueue default)
  | enq {s s' : QueueState T} {fuel : Nat} {v : T} {l : List CasEvent} :
      SeqReachable s → enqueue fuel s v = some (s', l) → SeqReachable s'
  | deq {s s' : QueueState T} {fuel : Nat} {r : Option T} {l : List CasEvent} :
      SeqReachable s → dequeue fuel s = some (s', r, l) → SeqReachable s'

/-- The number of values of std::uintptr_t: the tag field m_count is a
uintptr_t, 64 bits wide on the platform implied by the 16-byte-aligned
double-quad-word atomic (cmpxchg16b), and its arithmetic wraps at this
modulus. -/
def uintptrSize : Nat := 2 ^ 64

/-- The Enqueue loop of source lines 83-99 with the tag arithmetic at
the width of std::uintptr_t: `m_count + 1` computed by the machine is
`(m_count + 1) % uintptrSize`.  Apart from performing the additions of
lines 92 and 96 at machine width, identical to `enqueueLoop`. -/
def wEnqueueLoop {T : Type} : Nat → QueueState T → Nat →
    Option (QueueState T × Pointer × List CasEvent)
  | 0, _, _ => none
  | fuel + 1, s, node =>
    let tail := s.m_tail
    -- AddHazard(0, tail.m_ptr); if(tail != m_tail.Load()) continue;
    if ptrNe tail s.m_tail then wEnqueueLoop fuel s node
    else
      match tail.m_ptr with
      | none => none
      | some ti =>
        match s.heap[ti]? with
        | none => none
        | some tailNode =>
          let next := tailNode.m_next
          match next.m_ptr with
          | none =>
            -- tail.m_ptr->m_next.CompareExchange(next, {node, next.m_count + 1})
            match doCas s (Slot.next ti) next
                ⟨some node, (next.m_count + 1) % uintptrSize⟩ with
            | none => none
            | some (s1, ok, e) =>
              if ok then some (s1, tail, [e])
              else
                match wEnqueueLoop fuel s1 node with
                | none => none
                | some (s2, t, l) => some (s2, t, e :: l)
          | some ni =>
            -- m_tail.CompareExchange(tail, {next.m_ptr, tail.m_count + 1})
            match doCas s Slot.tail tail
                ⟨some ni, (tail.m_count + 1) % uintptrSize⟩ with
            | none => none
            | some (s1, _, e) =>
              match wEnqueueLoop fuel s1 node with
              | none => none
              | some (s2, t, l) => some (s2, t, e :: l)

/-- Enqueue (source lines 77-102) with the tag arithmetic at machine
width; the best-effort CAS of line 100 also adds in uintptr_t. -/
def wEnqueue {T : Type} (fuel : Nat) (s : QueueState T) (value : T) :
    Option (QueueState T × List CasEvent) :=
  let node := s.heap.length
  let s1 : QueueState T := { s with heap := s.heap ++ [⟨value, ⟨none, 0⟩⟩] }
  match wEnqueueLoop fuel s1 node with
  | none => none
  | some (s2, tail, l) =>
    match doCas s2 Slot.tail tail
        ⟨some node, (tail.m_count + 1) % uintptrSize⟩ with
    | none => none
    | some (s3, _, e) => some (s3, l ++ [e])

/-- The Dequeue loop of source lines 109-139 with the tag arithmetic of
lines 127 and 136 at the width of std::uintptr_t; otherwise identical
to `dequeueLoop`. -/
def wDequeueLoop {T : Type} : Nat → QueueState T →
    Option (QueueState T × List CasEvent × Option (T × Nat))
  | 0, _ => none
  | fuel + 1, s =>
    let head := s.m_head
    -- AddHazard(0, head.m_ptr); if(head != m_head.Load()) continue;
    if ptrNe head s.m_head then wDequeueLoop fuel s
    else
      let tail := s.m_tail
      match head.m_ptr with
      | none => none
      | some hi =>
        match s.heap[hi]? with
        | none => none
        | some headNode =>
          let next := headNode.m_next
          -- AddHazard(1, next.m_ptr); if(head != m_head.Load()) continue;
          if ptrNe head s.m_head then wDequeueLoop fuel s
          else
            match next.m_ptr with
            | none => some (s, [], none)   -- return std::nullopt;
            | some ni =>
              if head.m_ptr == tail.m_ptr then
                -- m_tail.CompareExchange(tail, {next.m_ptr, tail.m_count + 1}); continue;
                match doCas s Slot.tail tail
                    ⟨some ni, (tail.m_count + 1) % uintptrSize⟩ with
                | none => none
                | some (s1, _, e) =>
                  match wDequeueLoop fuel s1 with
                  | none => none
                  | some (s2, l, r) => some (s2, e :: l, r)
              else
                match s.heap[ni]? with
                | none => none
                | some nextNode =>
                  -- ret = next.m_ptr->m_value; (copied before the CAS)
                  let ret := nextNode.m_value
                  -- m_head.CompareExchange(head, {next.m_ptr, head.m_count + 1})
                  match doCas s Slot.head head
                      ⟨some ni, (head.m_count + 1) % uintptrSize⟩ with
                  | none => none
                  | some (s1, ok, e) =>
                    if ok then some (s1, [e], some (ret, hi))
                    else
                      match wDequeueLoop fuel s1 with
                      | none => none
                      | some (s2, l, r) => some (s2, e :: l, r)

/-- Dequeue (source lines 104-142) with the tag arithmetic at machine
width. -/
def wDequeue {T : Type} (fuel : Nat) (s : QueueState T) :
    Option (QueueState T × Option T × List CasEvent) :=
  match wDequeueLoop fuel s with
  | none => none
  | some (s1, l, none) => some (s1, none, l)
  | some (s1, l, some (ret, hi)) =>
    some ({ s1 with retired := s1.retired ++ [hi] }, some ret, l)

/-- A machine-representable state whose head tag sits at the uintptr_t
maximum: the sentinel node 0 carries tag 2^64 - 1 in m_head, and one
data node (value 7) follows it. -/
def wrapTagState : QueueState Nat :=
  { heap := [⟨0, ⟨some 1, 1⟩⟩, ⟨7, ⟨none, 0⟩⟩]
    m_head := ⟨some 0, uintptrSize - 1⟩
    m_tail := ⟨some 1, 5⟩
    retired := [] }

/-- The sequential scenario of the spec: enqueue 1, 2, 3 on a fresh
queue, then dequeue four times, collecting the four results. -/
def trace123 : Option (List (Option Nat)) :=
  (enqueue 2 (mkQueue 0) 1).bind fun p1 =>
  (enqueue 2 p1.1 2).bind fun p2 =>
  (enqueue 2 p2.1 3).bind fun p3 =>
  (dequeue 2 p3.1).bind fun q1 =>
  (dequeue 2 q1.1).bind fun q2 =>
  (dequeue 2 q2.1).bind fun q3 =>
  (dequeue 2 q3.1).map fun q4 =>
  [q1.2.1, q2.2.1, q3.2.1, q4.2.1]

/-! ### Basic facts about the tagged pointer operators -/

theorem ptrEq_iff (p q : Pointer) : ptrEq p q = true ↔ p = q := by
  cases p with
  | mk pp pc =>
    cases q with
    | mk qp qc =>
      simp [ptrEq, Pointer.mk.injEq]

@[simp]
theorem ptrEq_self (p : Pointer) : ptrEq p p = true := (ptrEq_iff p p).mpr rfl

@[simp]
theorem ptrNe_self (p : Pointer) : ptrNe p p = false := by
  simp [ptrNe]

theorem ptrEq_true_of_eq {p q : Pointer} (h : p = q) : ptrEq p q = true :=
  (ptrEq_iff p q).mpr h

theorem eq_of_ptrEq {p q : Pointer} (h : ptrEq p q = true) : p = q :=
  (ptrEq_iff p q).mp h

/-! ### The canonical sequential states -/

@[simp]
theorem canonHeap_length {T : Type} [Inhabited T] (vals : List T) :
    (canonHeap vals).length = vals.length := by
  simp [canonHeap]

theorem canonHeap_getElem?_lt {T : Type} [Inhabited T] (vals : List T) {i : Nat}
    (h : i < vals.length) :
    (canonHeap vals)[i]? = some ⟨vals.getD i default, canonNext vals i⟩ := by
  simp [canonHeap, canonNext, List.getElem?_map, List.getElem?_range h]

theorem canonHeap_getElem?_ge {T : Type} [Inhabited T] (vals : List T) {i : Nat}
    (h : vals.length ≤ i) : (canonHeap vals)[i]? = none := by
  apply List.getElem?_eq_none
  simpa using h

theorem getD_append_lt {T : Type} [Inhabited T] (vals : List T) (v : T) {i : Nat}
    (h : i < vals.length) :
    (vals ++ [v]).getD i default = vals.getD i default := by
  rw [List.getD_eq_getElem?_getD, List.getD_eq_getElem?_getD,
      List.getElem?_append_left h]

theorem getD_append_self {T : Type} [Inhabited T] (vals : List T) (v : T) :
    (vals ++ [v]).getD vals.length default = v := by
  rw [List.getD_eq_getElem?_getD, List.getElem?_append_right (Nat.le_refl _)]
  simp

theorem list_ext_getElem? {α : Type} {l1 l2 : List α}
    (h : ∀ n : Nat, l1[n]? = l2[n]?) : l1 = l2 := by
  apply List.ext_get?_iff.mpr
  intro n
  simpa [List.get?_eq_getElem?] using h n

/-- Linking a fresh node after the last node of a canonical heap yields
the canonical heap over the extended value list. -/
theorem canonHeap_snoc {T : Type} [Inhabited T] (vals : List T) (v : T)
    (h0 : 0 < vals.length) :
    (canonHeap vals ++ [(⟨v, ⟨none, 0⟩⟩ : Node T)]).set (vals.length - 1)
      ⟨vals.getD (vals.length - 1) default, ⟨some vals.length, 1⟩⟩ =
    canonHeap (vals ++ [v]) := by
  apply list_ext_getElem?
  intro i
  rcases Nat.lt_trichotomy i (vals.length - 1) with h1 | h1 | h1
  · rw [List.getElem?_set_ne (by omega : vals.length - 1 ≠ i),
        List.getElem?_append_left (by simp; omega),
        canonHeap_getElem?_lt vals (by omega),
        canonHeap_getElem?_lt (vals ++ [v]) (by simp; omega),
        getD_append_lt vals v (by omega)]
    simp only [canonNext, List.length_append, List.length_singleton]
    rw [if_pos (by omega), if_pos (by omega)]
  · subst h1
    rw [List.getElem?_set_eq_of_lt _ (by simp; omega),
        canonHeap_getElem?_lt (vals ++ [v]) (by simp; omega),
        getD_append_lt vals v (by omega)]
    simp only [canonNext, List.length_append, List.length_singleton]
    rw [if_pos (by omega)]
    have hc : vals.length - 1 + 1 = vals.length := by omega
    rw [hc]
  · rcases Nat.lt_trichotomy i vals.length with h2 | h2 | h2
    · omega
    · subst h2
      rw [List.getElem?_set_ne (by omega : vals.length - 1 ≠ vals.length),
          List.getElem?_append_right (by simp),
          canonHeap_getElem?_lt (vals ++ [v]) (by simp)]
      simp only [canonNext, List.length_append, List.length_singleton]
      rw [if_neg (by omega)]
      simp [getD_append_self]
    · rw [List.getElem?_set_ne (by omega : vals.length - 1 ≠ i),
          List.getElem?_eq_none (by simp; omega),
          canonHeap_getElem?_ge (vals ++ [v]) (by simp; omega)]

/-- One sequential Enqueue from a canonical state: the loop links the
new node behind the last node in its first iteration, and the single
best-effort tail CAS then succeeds.  The two CAS events executed are the
link CAS on the last node's next slot and the tail advance. -/
theorem enqueue_canonStep {T : Type} [Inhabited T] (vals : List T) (v : T)
    (h fuel : Nat) (h0 : 0 < vals.length) :
    enqueue (fuel + 1) (canonState vals h) v =
      some (canonState (vals ++ [v]) h,
        [⟨Slot.next (vals.length - 1), ⟨none, 0⟩, ⟨none, 0⟩,
          ⟨some vals.length, 1⟩, true⟩,
         ⟨Slot.tail, ⟨some (vals.length - 1), vals.length - 1⟩,
          ⟨some (vals.length - 1), vals.length - 1⟩,
          ⟨some vals.length, vals.length⟩, true⟩]) := by
  have hlook : (canonHeap vals ++ [(⟨v, ⟨none, 0⟩⟩ : Node T)])[vals.length - 1]? =
      some ⟨vals.getD (vals.length - 1) default, ⟨none, 0⟩⟩ := by
    rw [List.getElem?_append_left (by simp; omega),
        canonHeap_getElem?_lt vals (by omega)]
    simp only [canonNext]
    rw [if_neg (by omega)]
  have hcnt : vals.length - 1 + 1 = vals.length := by omega
  simp only [enqueue, canonState, canonHeap_length, enqueueLoop, ptrNe_self,
    Bool.false_eq_true, if_false, hlook, doCas, readSlot, hlook, Option.map_some,
    ptrEq_self, if_true, writeSlot, ite_true]
  simp [canonHeap_snoc vals v h0, hcnt]
  rw [← List.getD_eq_getElem?_getD]
  exact canonHeap_snoc vals v h0

/-- A fresh queue is the canonical state over the one-element value list
holding the sentinel's default value. -/
theorem mkQueue_eq_canon {T : Type} [Inhabited T] :
    (mkQueue default : QueueState T) = canonState [default] 0 := rfl

/-- One sequential Dequeue from a non-empty canonical state: the head
CAS succeeds in the first loop iteration, the copied value is the one in
the node after the sentinel, and the old sentinel is retired. -/
theorem dequeue_canonStep {T : Type} [Inhabited T] (vals : List T) (h fuel : Nat)
    (hh : h + 1 < vals.length) :
    dequeue (fuel + 1) (canonState vals h) =
      some (canonState vals (h + 1), some (vals.getD (h + 1) default),
        [⟨Slot.head, ⟨some h, h⟩, ⟨some h, h⟩, ⟨some (h + 1), h + 1⟩, true⟩]) := by
  have hlook : (canonHeap vals : List (Node T))[h]? =
      some ⟨vals.getD h default, ⟨some (h + 1), 1⟩⟩ := by
    rw [canonHeap_getElem?_lt vals (by omega)]
    simp only [canonNext]
    rw [if_pos hh]
  have hlook2 : (canonHeap vals : List (Node T))[h + 1]? =
      some ⟨vals.getD (h + 1) default, canonNext vals (h + 1)⟩ :=
    canonHeap_getElem?_lt vals hh
  have hne : ((some h : Option Nat) == some (vals.length - 1)) = false := by
    simp only [beq_eq_false_iff_ne, ne_eq, Option.some.injEq]
    omega
  simp only [dequeue, dequeueLoop, canonState, ptrNe_self, Bool.false_eq_true,
    if_false, hlook, hlook2, hne, doCas, readSlot, Option.map_some, ptrEq_self,
    if_true, writeSlot, ite_true, ite_false]
  simp [List.range_succ]

/-- One sequential Dequeue from an empty canonical state (the sentinel
is the last node): the next pointer is null, so the call returns the
empty optional at once, executing no CAS and retiring nothing. -/
theorem dequeue_canonStep_empty {T : Type} [Inhabited T] (vals : List T)
    (h fuel : Nat) (hh : h + 1 = vals.length) :
    dequeue (fuel + 1) (canonState vals h) =
      some (canonState vals h, none, []) := by
  have hlook : (canonHeap vals : List (Node T))[h]? =
      some ⟨vals.getD h default, ⟨none, 0⟩⟩ := by
    rw [canonHeap_getElem?_lt vals (by omega)]
    simp only [canonNext]
    rw [if_neg (by omega)]
  simp only [dequeue, dequeueLoop, canonState, ptrNe_self, Bool.false_eq_true,
    if_false, hlook]

/-- Every state reachable by complete sequential operations is a
canonical state with a valid head index. -/
theorem seqReachable_canon {T : Type} [Inhabited T] {s : QueueState T}
    (hs : SeqReachable s) :
    ∃ vals h, 0 < vals.length ∧ h < vals.length ∧ s = canonState vals h := by
  induction hs with
  | init =>
    exact ⟨[default], 0, by simp, by simp, mkQueue_eq_canon⟩
  | enq hs heq ih =>
    obtain ⟨vals, h, h0, hh, rfl⟩ := ih
    rename_i fuel v l
    cases fuel with
    | zero => simp [enqueue, enqueueLoop] at heq
    | succ fuel =>
      rw [enqueue_canonStep vals v h fuel h0] at heq
      obtain ⟨rfl, -⟩ := Prod.mk.injEq .. ▸ Option.some.injEq .. ▸ heq
      exact ⟨vals ++ [v], h, by simp, by simp; omega, rfl⟩
  | deq hs heq ih =>
    obtain ⟨vals, h, h0, hh, rfl⟩ := ih
    rename_i fuel r l
    cases fuel with
    | zero => simp [dequeue, dequeueLoop] at heq
    | succ fuel =>
      rcases Nat.lt_or_ge (h + 1) vals.length with hlt | hge
      · rw [dequeue_canonStep vals h fuel hlt] at heq
        obtain ⟨rfl, -⟩ := Prod.mk.injEq .. ▸ Option.some.injEq .. ▸ heq
        exact ⟨vals, h + 1, h0, hlt, rfl⟩
      · have hE : h + 1 = vals.length := by omega
        rw [dequeue_canonStep_empty vals h fuel hE] at heq
        obtain ⟨rfl, -⟩ := Prod.mk.injEq .. ▸ Option.some.injEq .. ▸ heq
        exact ⟨vals, h, h0, hh, rfl⟩

/-- If the Dequeue loop exits through the empty return of line 124, it
does so in its first iteration: the state is untouched, no CAS was
executed, and the head node's next pointer is null. -/
theorem dequeueLoop_none {T : Type} :
    ∀ (fuel : Nat) (s s' : QueueState T) (l : List CasEvent),
      dequeueLoop fuel s = some (s', l, none) →
      s' = s ∧ l = [] ∧
        ∃ hi nd, s.m_head.m_ptr = some hi ∧ s.heap[hi]? = some nd ∧
          nd.m_next.m_ptr = none := by
  intro fuel
  induction fuel with
  | zero => intro s s' l h; simp [dequeueLoop] at h
  | succ fuel ih =>
    intro s s' l h
    simp only [dequeueLoop, ptrNe_self, Bool.false_eq_true, if_false] at h
    cases hh : s.m_head.m_ptr with
    | none => rw [hh] at h; simp only [] at h; cases h
    | some hi =>
      rw [hh] at h
      simp only [] at h
      cases hnd : s.heap[hi]? with
      | none => rw [hnd] at h; simp only [] at h; cases h
      | some nd =>
        rw [hnd] at h
        simp only [] at h
        cases hnx : nd.m_next.m_ptr with
        | none =>
          rw [hnx] at h
          simp only [Option.some.injEq, Prod.mk.injEq] at h
          obtain ⟨h1, h2, -⟩ := h
          exact ⟨h1.symm, h2.symm, hi, nd, rfl, hnd, hnx⟩
        | some ni =>
          rw [hnx] at h
          simp only [] at h
          by_cases hbt : (some hi == s.m_tail.m_ptr) = true
          · rw [if_pos hbt] at h
            simp only [doCas, readSlot, ptrEq_self, if_true] at h
            cases hrec : dequeueLoop fuel
                (writeSlot s Slot.tail ⟨some ni, s.m_tail.m_count + 1⟩) with
            | none => rw [hrec] at h; simp only [] at h; cases h
            | some trip =>
              obtain ⟨s2, l2, r⟩ := trip
              rw [hrec] at h
              simp only [Option.some.injEq, Prod.mk.injEq] at h
              obtain ⟨-, -, hr⟩ := h
              rw [hr] at hrec
              obtain ⟨-, -, hi', nd', hh', hnd', hnx'⟩ := ih _ _ _ hrec
              simp only [writeSlot] at hh' hnd'
              rw [hh] at hh'
              obtain rfl : hi = hi' := by simpa using hh'
              rw [hnd] at hnd'
              obtain rfl : nd = nd' := by simpa using hnd'
              rw [hnx] at hnx'
              cases hnx'
          · rw [if_neg hbt] at h
            cases hn2 : s.heap[ni]? with
            | none => rw [hn2] at h; simp only [] at h; cases h
            | some nextNode =>
              rw [hn2] at h
              simp only [doCas, readSlot, ptrEq_self, if_true] at h
              simp at h

/-- C10: a Dequeue call that returns the empty optional changes
nothing: the returned state is the input state (so the list, head, tail
and retired log are unchanged) and the call executed no CAS at all. -/
theorem dequeue_empty_no_effect {T : Type} (fuel : Nat) (s s' : QueueState T)
    (l : List CasEvent) (h : dequeue fuel s = some (s', none, l)) :
    s' = s ∧ l = [] ∧ s'.retired = s.retired := by
  unfold dequeue at h
  cases hloop : dequeueLoop fuel s with
  | none => rw [hloop] at h; cases h
  | some trip =>
    obtain ⟨s1, l1, r⟩ := trip
    rw [hloop] at h
    cases r with
    | none =>
      simp only [Option.some.injEq, Prod.mk.injEq, and_true, true_and] at h
      obtain ⟨h1, h2⟩ := h
      obtain ⟨hA, hB, -⟩ := dequeueLoop_none fuel s s1 l1 hloop
      exact ⟨h1 ▸ hA, h2 ▸ hB, by rw [← h1, hA]⟩
    | some p =>
      obtain ⟨ret, hi⟩ := p
      simp at h

/-- Instantiation of the C10 theorem: dequeuing a fresh empty queue
returns the empty optional and leaves the state untouched. -/
theorem dequeue_empty_no_effect_witness :
    mkQueue (0 : Nat) = mkQueue 0 ∧ ([] : List CasEvent) = [] ∧
      (mkQueue (0 : Nat)).retired = (mkQueue 0).retired :=
  dequeue_empty_no_effect 1 (mkQueue 0) (mkQueue 0) [] (by decide)

/-- When the node after the sentinel is absent, Dequeue returns the
empty optional immediately, for any state whatsoever. -/
theorem dequeue_of_headNextIsNull {T : Type} (s : QueueState T) (fuel : Nat)
    (hnull : headNextIsNull s = true) :
    dequeue (fuel + 1) s = some (s, none, []) := by
  unfold headNextIsNull at hnull
  cases hh : s.m_head.m_ptr with
  | none => rw [hh] at hnull; cases hnull
  | some hi =>
    rw [hh] at hnull
    simp only [] at hnull
    cases hnd : s.heap[hi]? with
    | none => rw [hnd] at hnull; cases hnull
    | some nd =>
      rw [hnd] at hnull
      simp only [] at hnull
      have hnx : nd.m_next.m_ptr = none := Option.isNone_iff_eq_none.mp hnull
      simp only [dequeue, dequeueLoop, ptrNe_self, Bool.false_eq_true, if_false,
        hh, hnd, hnx]

/-- On a canonical state with the sentinel not last, the queue is not
logically empty. -/
theorem headNextIsNull_canon_false {T : Type} [Inhabited T] (vals : List T)
    (h : Nat) (hlt : h + 1 < vals.length) :
    headNextIsNull (canonState vals h) = false := by
  simp only [headNextIsNull, canonState]
  rw [canonHeap_getElem?_lt vals (by omega)]
  simp only [canonNext]
  rw [if_pos hlt]
  rfl

/-- On a canonical state whose sentinel is the last node, the queue is
logically empty. -/
theorem headNextIsNull_canon_true {T : Type} [Inhabited T] (vals : List T)
    (h : Nat) (he : h + 1 = vals.length) :
    headNextIsNull (canonState vals h) = true := by
  simp only [headNextIsNull, canonState]
  rw [canonHeap_getElem?_lt vals (by omega)]
  simp only [canonNext]
  rw [if_neg (by omega)]
  rfl

/-- Inversion for a successful Dequeue from a canonical state. -/
theorem dequeue_canon_inv {T : Type} [Inhabited T] {vals : List T}
    {h fuel : Nat} {s' : QueueState T} {v : T} {l : List CasEvent}
    (hh : h < vals.length)
    (hd : dequeue fuel (canonState vals h) = some (s', some v, l)) :
    h + 1 < vals.length ∧ s' = canonState vals (h + 1) ∧
      v = vals.getD (h + 1) default ∧
      l = [⟨Slot.head, ⟨some h, h⟩, ⟨some h, h⟩, ⟨some (h + 1), h + 1⟩, true⟩] := by
  cases fuel with
  | zero => simp [dequeue, dequeueLoop] at hd
  | succ fuel =>
    rcases Nat.lt_or_ge (h + 1) vals.length with hlt | hge
    · rw [dequeue_canonStep vals h fuel hlt] at hd
      simp only [Option.some.injEq, Prod.mk.injEq] at hd
      obtain ⟨h1, h2, h3⟩ := hd
      exact ⟨hlt, h1.symm, h2.symm, h3.symm⟩
    · rw [dequeue_canonStep_empty vals h fuel (by omega)] at hd
      simp at hd

/-- C4: in every sequentially reachable state, the head node is a pure
sentinel.  A successful Dequeue returns the value held by the distinct
node after the sentinel, and that node becomes the new head; when no
node follows the sentinel the queue is logically empty and Dequeue
returns the empty optional with the state unchanged, so repeating it
keeps returning empty and never surfaces the sentinel's value. -/
theorem head_is_sentinel {T : Type} [Inhabited T] (s : QueueState T)
    (hs : SeqReachable s) :
    (∀ fuel s' v l, dequeue fuel s = some (s', some v, l) →
        ∃ hi ni, s.m_head.m_ptr = some hi ∧
          (∃ nd, s.heap[hi]? = some nd ∧ nd.m_next.m_ptr = some ni) ∧
          hi ≠ ni ∧
          (∃ vnode, s.heap[ni]? = some vnode ∧ vnode.m_value = v) ∧
          s'.m_head.m_ptr = some ni) ∧
    (headNextIsNull s = true →
      ∀ fuel, dequeue (fuel + 1) s = some (s, none, [])) := by
  obtain ⟨vals, h, h0, hh, rfl⟩ := seqReachable_canon hs
  constructor
  · intro fuel s' v l hd
    obtain ⟨hlt, rfl, rfl, -⟩ := dequeue_canon_inv hh hd
    refine ⟨h, h + 1, rfl, ⟨⟨vals.getD h default, ⟨some (h + 1), 1⟩⟩, ?_, rfl⟩,
      by omega, ⟨⟨vals.getD (h + 1) default, canonNext vals (h + 1)⟩, ?_, rfl⟩, rfl⟩
    · show (canonHeap vals)[h]? = _
      rw [canonHeap_getElem?_lt vals (by omega)]
      simp only [canonNext]
      rw [if_pos hlt]
    · exact canonHeap_getElem?_lt vals hlt
  · intro hnull fuel
    exact dequeue_of_headNextIsNull _ fuel hnull

/-- Instantiation of the C4 theorem at the reachable state holding one
value (5) behind the sentinel. -/
theorem head_is_sentinel_witness :
    (∀ fuel s' v l,
        dequeue fuel (canonState [0, 5] 0 : QueueState Nat) = some (s', some v, l) →
        ∃ hi ni, (canonState [0, 5] 0 : QueueState Nat).m_head.m_ptr = some hi ∧
          (∃ nd, (canonState [0, 5] 0 : QueueState Nat).heap[hi]? = some nd ∧
            nd.m_next.m_ptr = some ni) ∧
          hi ≠ ni ∧
          (∃ vnode, (canonState [0, 5] 0 : QueueState Nat).heap[ni]? = some vnode ∧
            vnode.m_value = v) ∧
          s'.m_head.m_ptr = some ni) ∧
    (headNextIsNull (canonState [0, 5] 0 : QueueState Nat) = true →
      ∀ fuel, dequeue (fuel + 1) (canonState [0, 5] 0 : QueueState Nat) =
        some (canonState [0, 5] 0, none, [])) :=
  head_is_sentinel _ (SeqReachable.enq SeqReachable.init
    (by decide : enqueue 1 (mkQueue 0) 5 = some (canonState [0, 5] 0,
      [⟨Slot.next 0, ⟨none, 0⟩, ⟨none, 0⟩, ⟨some 1, 1⟩, true⟩,
       ⟨Slot.tail, ⟨some 0, 0⟩, ⟨some 0, 0⟩, ⟨some 1, 1⟩, true⟩])))

/-- C5: from any sequentially reachable state, Dequeue on a logically
empty queue (null head.next) returns the empty optional with the state
untouched, the expected empty signal rather than a failure of the
operation itself; and Dequeue on a non-empty queue returns a present
optional. -/
theorem dequeue_empty_signal {T : Type} [Inhabited T] (s : QueueState T)
    (hs : SeqReachable s) :
    (headNextIsNull s = true →
      ∀ fuel, dequeue (fuel + 1) s = some (s, none, [])) ∧
    (headNextIsNull s = false →
      ∀ fuel, ∃ s' v l, dequeue (fuel + 1) s = some (s', some v, l)) := by
  obtain ⟨vals, h, h0, hh, rfl⟩ := seqReachable_canon hs
  constructor
  · intro hnull fuel
    exact dequeue_of_headNextIsNull _ fuel hnull
  · intro hnonempty fuel
    have hlt : h + 1 < vals.length := by
      rcases Nat.lt_or_ge (h + 1) vals.length with hlt | hge
      · exact hlt
      · rw [headNextIsNull_canon_true vals h (by omega)] at hnonempty
        cases hnonempty
    exact ⟨canonState vals (h + 1), vals.getD (h + 1) default, _,
      dequeue_canonStep vals h fuel hlt⟩

/-- Instantiation of the C5 theorem at the reachable state holding one
value behind the sentinel (non-empty branch applies). -/
theorem dequeue_empty_signal_witness :
    (headNextIsNull (canonState [0, 7] 0 : QueueState Nat) = true →
      ∀ fuel, dequeue (fuel + 1) (canonState [0, 7] 0 : QueueState Nat) =
        some (canonState [0, 7] 0, none, [])) ∧
    (headNextIsNull (canonState [0, 7] 0 : QueueState Nat) = false →
      ∀ fuel, ∃ s' v l,
        dequeue (fuel + 1) (canonState [0, 7] 0 : QueueState Nat) =
          some (s', some v, l)) :=
  dequeue_empty_signal _ (SeqReachable.enq SeqReachable.init
    (by decide : enqueue 1 (mkQueue 0) 7 = some (canonState [0, 7] 0,
      [⟨Slot.next 0, ⟨none, 0⟩, ⟨none, 0⟩, ⟨some 1, 1⟩, true⟩,
       ⟨Slot.tail, ⟨some 0, 0⟩, ⟨some 0, 0⟩, ⟨some 1, 1⟩, true⟩])))

/-- C6: from any sequentially reachable state, a successful Dequeue
retires exactly one node — the old head (the former sentinel), appended
once to the retire log — and not the node whose value it returns: that
distinct node becomes the new head (the new sentinel). -/
theorem dequeue_retires_old_head {T : Type} [Inhabited T] (s : QueueState T)
    (hs : SeqReachable s) (fuel : Nat) (s' : QueueState T) (v : T)
    (l : List CasEvent) (hd : dequeue fuel s = some (s', some v, l)) :
    ∃ hi ni, s.m_head.m_ptr = some hi ∧
      s'.retired = s.retired ++ [hi] ∧
      s'.m_head.m_ptr = some ni ∧ hi ≠ ni ∧
      (∃ vnode, s.heap[ni]? = some vnode ∧ vnode.m_value = v) := by
  obtain ⟨vals, h, h0, hh, rfl⟩ := seqReachable_canon hs
  obtain ⟨hlt, rfl, rfl, -⟩ := dequeue_canon_inv hh hd
  refine ⟨h, h + 1, rfl, ?_, rfl, by omega,
    ⟨⟨vals.getD (h + 1) default, canonNext vals (h + 1)⟩,
      canonHeap_getElem?_lt vals hlt, rfl⟩⟩
  show List.range (h + 1) = List.range h ++ [h]
  exact List.range_succ h

/-- Instantiation of the C6 theorem: dequeuing the state holding the
value 9 retires the sentinel node 0 and makes node 1 the new head. -/
theorem dequeue_retires_old_head_witness :
    ∃ hi ni, (canonState [0, 9] 0 : QueueState Nat).m_head.m_ptr = some hi ∧
      (canonState [0, 9] 1 : QueueState Nat).retired =
        (canonState [0, 9] 0 : QueueState Nat).retired ++ [hi] ∧
      (canonState [0, 9] 1 : QueueState Nat).m_head.m_ptr = some ni ∧ hi ≠ ni ∧
      (∃ vnode, (canonState [0, 9] 0 : QueueState Nat).heap[ni]? = some vnode ∧
        vnode.m_value = 9) :=
  dequeue_retires_old_head _ (SeqReachable.enq SeqReachable.init
    (by decide : enqueue 1 (mkQueue 0) 9 = some (canonState [0, 9] 0,
      [⟨Slot.next 0, ⟨none, 0⟩, ⟨none, 0⟩, ⟨some 1, 1⟩, true⟩,
       ⟨Slot.tail, ⟨some 0, 0⟩, ⟨some 0, 0⟩, ⟨some 1, 1⟩, true⟩])))
    1 (canonState [0, 9] 1) 9
    [⟨Slot.head, ⟨some 0, 0⟩, ⟨some 0, 0⟩, ⟨some 1, 1⟩, true⟩]
    (by decide)

/-- Inversion for a CompareExchange that returned: the event records the
requested expected and desired values, and on success the replaced value
was the expected one. -/
theorem doCas_some_inv {T : Type} {s : QueueState T} {sl : Slot}
    {expected desired : Pointer} {s1 : QueueState T} {ok : Bool} {e : CasEvent}
    (hc : doCas s sl expected desired = some (s1, ok, e)) :
    e.desired = desired ∧ e.expected = expected ∧
      (e.success = true → e.prior = expected) := by
  unfold doCas at hc
  cases hr : readSlot s sl with
  | none => rw [hr] at hc; cases hc
  | some cur =>
    rw [hr] at hc
    simp only [] at hc
    by_cases hp : ptrEq cur expected = true
    · rw [if_pos hp] at hc
      simp only [Option.some.injEq, Prod.mk.injEq] at hc
      obtain ⟨-, -, he⟩ := hc
      rw [← he]
      exact ⟨rfl, rfl, fun _ => eq_of_ptrEq hp⟩
    · rw [if_neg hp] at hc
      simp only [Option.some.injEq, Prod.mk.injEq] at hc
      obtain ⟨-, -, he⟩ := hc
      rw [← he]
      exact ⟨rfl, rfl, fun hfalse => by cases hfalse⟩

/-- Every CompareExchange the queue issues asks for the uintptr_t sum
of the snapshot tag and one, so a successful one installs the machine
tag (replaced tag + 1) mod 2^64. -/
theorem wDoCas_tagStep {T : Type} {s : QueueState T} {sl : Slot}
    {expected : Pointer} {p : Option Nat} {s1 : QueueState T} {ok : Bool}
    {e : CasEvent}
    (hc : doCas s sl expected ⟨p, (expected.m_count + 1) % uintptrSize⟩ =
      some (s1, ok, e)) :
    e.success = true →
      e.desired.m_count = (e.prior.m_count + 1) % uintptrSize := by
  obtain ⟨hd, -, hp⟩ := doCas_some_inv hc
  intro hsucc
  rw [hd, hp hsucc]

/-- All successful CAS events of the machine-width Enqueue linking loop
install the wrapped successor of the tag they replace. -/
theorem wEnqueueLoop_tag {T : Type} :
    ∀ (fuel : Nat) (s : QueueState T) (node : Nat) (s' : QueueState T)
      (t : Pointer) (l : List CasEvent),
      wEnqueueLoop fuel s node = some (s', t, l) →
      ∀ e ∈ l, e.success = true →
        e.desired.m_count = (e.prior.m_count + 1) % uintptrSize := by
  intro fuel
  induction fuel with
  | zero => intro s node s' t l h; simp [wEnqueueLoop] at h
  | succ fuel ih =>
    intro s node s' t l h
    simp only [wEnqueueLoop, ptrNe_self, Bool.false_eq_true, if_false] at h
    cases ht : s.m_tail.m_ptr with
    | none => rw [ht] at h; cases h
    | some ti =>
      rw [ht] at h
      simp only [] at h
      cases htn : s.heap[ti]? with
      | none => rw [htn] at h; cases h
      | some tailNode =>
        rw [htn] at h
        simp only [] at h
        cases hnx : tailNode.m_next.m_ptr with
        | none =>
          rw [hnx] at h
          simp only [] at h
          cases hc : doCas s (Slot.next ti) tailNode.m_next
              ⟨some node, (tailNode.m_next.m_count + 1) % uintptrSize⟩ with
          | none => rw [hc] at h; cases h
          | some trip =>
            obtain ⟨s1, ok, e⟩ := trip
            rw [hc] at h
            simp only [] at h
            cases ok with
            | true =>
              simp only [if_true, Option.some.injEq, Prod.mk.injEq] at h
              obtain ⟨-, -, hl⟩ := h
              intro e' he'
              rw [← hl] at he'
              simp only [List.mem_singleton] at he'
              subst he'
              exact wDoCas_tagStep hc
            | false =>
              simp only [Bool.false_eq_true, if_false] at h
              cases hrec : wEnqueueLoop fuel s1 node with
              | none => rw [hrec] at h; cases h
              | some trip2 =>
                obtain ⟨s2, t2, l2⟩ := trip2
                rw [hrec] at h
                simp only [Option.some.injEq, Prod.mk.injEq] at h
                obtain ⟨-, -, hl⟩ := h
                intro e' he'
                rw [← hl] at he'
                rcases List.mem_cons.mp he' with rfl | he2
                · exact wDoCas_tagStep hc
                · exact ih s1 node s2 t2 l2 hrec e' he2
        | some ni =>
          rw [hnx] at h
          simp only [] at h
          cases hc : doCas s Slot.tail s.m_tail
              ⟨some ni, (s.m_tail.m_count + 1) % uintptrSize⟩ with
          | none => rw [hc] at h; cases h
          | some trip =>
            obtain ⟨s1, ok, e⟩ := trip
            rw [hc] at h
            simp only [] at h
            cases hrec : wEnqueueLoop fuel s1 node with
            | none => rw [hrec] at h; cases h
            | some trip2 =>
              obtain ⟨s2, t2, l2⟩ := trip2
              rw [hrec] at h
              simp only [Option.some.injEq, Prod.mk.injEq] at h
              obtain ⟨-, -, hl⟩ := h
              intro e' he'
              rw [← hl] at he'
              rcases List.mem_cons.mp he' with rfl | he2
              · exact wDoCas_tagStep hc
              · exact ih s1 node s2 t2 l2 hrec e' he2

/-- All successful CAS events of the machine-width Dequeue loop install
the wrapped successor of the tag they replace. -/
theorem wDequeueLoop_tag {T : Type} :
    ∀ (fuel : Nat) (s s' : QueueState T) (l : List CasEvent)
      (r : Option (T × Nat)),
      wDequeueLoop fuel s = some (s', l, r) →
      ∀ e ∈ l, e.success = true →
        e.desired.m_count = (e.prior.m_count + 1) % uintptrSize := by
  intro fuel
  induction fuel with
  | zero => intro s s' l r h; simp [wDequeueLoop] at h
  | succ fuel ih =>
    intro s s' l r h
    simp only [wDequeueLoop, ptrNe_self, Bool.false_eq_true, if_false] at h
    cases hh : s.m_head.m_ptr with
    | none => rw [hh] at h; cases h
    | some hi =>
      rw [hh] at h
      simp only [] at h
      cases hnd : s.heap[hi]? with
      | none => rw [hnd] at h; cases h
      | some nd =>
        rw [hnd] at h
        simp only [] at h
        cases hnx : nd.m_next.m_ptr with
        | none =>
          rw [hnx] at h
          simp only [Option.some.injEq, Prod.mk.injEq] at h
          obtain ⟨-, hl, -⟩ := h
          intro e' he'
          rw [← hl] at he'
          cases he'
        | some ni =>
          rw [hnx] at h
          simp only [] at h
          by_cases hbt : (some hi == s.m_tail.m_ptr) = true
          · rw [if_pos hbt] at h
            cases hc : doCas s Slot.tail s.m_tail
                ⟨some ni, (s.m_tail.m_count + 1) % uintptrSize⟩ with
            | none => rw [hc] at h; cases h
            | some trip =>
              obtain ⟨s1, ok, e⟩ := trip
              rw [hc] at h
              simp only [] at h
              cases hrec : wDequeueLoop fuel s1 with
              | none => rw [hrec] at h; cases h
              | some trip2 =>
                obtain ⟨s2, l2, r2⟩ := trip2
                rw [hrec] at h
                simp only [Option.some.injEq, Prod.mk.injEq] at h
                obtain ⟨-, hl, -⟩ := h
                intro e' he'
                rw [← hl] at he'
                rcases List.mem_cons.mp he' with rfl | he2
                · exact wDoCas_tagStep hc
                · exact ih s1 s2 l2 r2 hrec e' he2
          · rw [if_neg hbt] at h
            cases hn2 : s.heap[ni]? with
            | none => rw [hn2] at h; cases h
            | some nextNode =>
              rw [hn2] at h
              simp only [] at h
              cases hc : doCas s Slot.head s.m_head
                  ⟨some ni, (s.m_head.m_count + 1) % uintptrSize⟩ with
              | none => rw [hc] at h; cases h
              | some trip =>
                obtain ⟨s1, ok, e⟩ := trip
                rw [hc] at h
                simp only [] at h
                cases ok with
                | true =>
                  simp only [if_true, Option.some.injEq, Prod.mk.injEq] at h
                  obtain ⟨-, hl, -⟩ := h
                  intro e' he'
                  rw [← hl] at he'
                  simp only [List.mem_singleton] at he'
                  subst he'
                  exact wDoCas_tagStep hc
                | false =>
                  simp only [Bool.false_eq_true, if_false] at h
                  cases hrec : wDequeueLoop fuel s1 with
                  | none => rw [hrec] at h; cases h
                  | some trip2 =>
                    obtain ⟨s2, l2, r2⟩ := trip2
                    rw [hrec] at h
                    simp only [Option.some.injEq, Prod.mk.injEq] at h
                    obtain ⟨-, hl, -⟩ := h
                    intro e' he'
                    rw [← hl] at he'
                    rcases List.mem_cons.mp he' with rfl | he2
                    · exact wDoCas_tagStep hc
                    · exact ih s1 s2 l2 r2 hrec e' he2

/-- Counterexample to C3 as stated: the tag is a uintptr_t, whose
addition wraps.  Dequeuing from a machine state whose head slot holds
the maximal tag 2^64 - 1 succeeds the head CAS of line 136 and installs
the tag (2^64 - 1 + 1) mod 2^64 = 0, which is not strictly greater than
the replaced tag 2^64 - 1. -/
theorem cas_tag_wrap_counterexample :
    wDequeue 1 wrapTagState =
      some ({ heap := [⟨0, ⟨some 1, 1⟩⟩, ⟨7, ⟨none, 0⟩⟩],
              m_head := ⟨some 1, 0⟩,
              m_tail := ⟨some 1, 5⟩,
              retired := [0] },
        some 7,
        [⟨Slot.head, ⟨some 0, uintptrSize - 1⟩, ⟨some 0, uintptrSize - 1⟩,
          ⟨some 1, 0⟩, true⟩]) ∧
    ¬ uintptrSize - 1 < 0 := by
  constructor
  · decide
  · simp

/-- C3 (amended): on every atomic slot (head, tail, or any node's
next), every successful CAS executed by Enqueue or Dequeue, from any
starting state and with any fuel, installs the uintptr_t tag
(replaced tag + 1) mod 2^64 — strictly greater than the replaced tag,
regardless of whether the node reference is the same or reused, in
every case except when the replaced tag is the maximum 2^64 - 1, where
the machine addition wraps the new tag to 0. -/
theorem cas_tag_wrapping_increase {T : Type} (fuel : Nat) (s : QueueState T)
    (v : T) :
    (∀ s' l, wEnqueue fuel s v = some (s', l) →
      ∀ e ∈ l, e.success = true →
        e.desired.m_count = (e.prior.m_count + 1) % uintptrSize ∧
        (e.prior.m_count + 1 < uintptrSize →
          e.prior.m_count < e.desired.m_count)) ∧
    (∀ s' r l, wDequeue fuel s = some (s', r, l) →
      ∀ e ∈ l, e.success = true →
        e.desired.m_count = (e.prior.m_count + 1) % uintptrSize ∧
        (e.prior.m_count + 1 < uintptrSize →
          e.prior.m_count < e.desired.m_count)) := by
  constructor
  · intro s' l h e he hsucc
    unfold wEnqueue at h
    simp only [] at h
    cases hloop : wEnqueueLoop fuel
        { s with heap := s.heap ++ [⟨v, ⟨none, 0⟩⟩] } s.heap.length with
    | none => rw [hloop] at h; cases h
    | some trip =>
      obtain ⟨s2, tailSnap, lloop⟩ := trip
      rw [hloop] at h
      simp only [] at h
      cases hc : doCas s2 Slot.tail tailSnap
          ⟨some s.heap.length, (tailSnap.m_count + 1) % uintptrSize⟩ with
      | none => rw [hc] at h; cases h
      | some trip2 =>
        obtain ⟨s3, ok, e2⟩ := trip2
        rw [hc] at h
        simp only [Option.some.injEq, Prod.mk.injEq] at h
        obtain ⟨-, hl⟩ := h
        rw [← hl] at he
        rcases List.mem_append.mp he with hin | hin
        · have hw := wEnqueueLoop_tag fuel _ _ s2 tailSnap lloop hloop e hin hsucc
          refine ⟨hw, fun hlt => ?_⟩
          rw [hw, Nat.mod_eq_of_lt hlt]
          omega
        · simp only [List.mem_singleton] at hin
          subst hin
          have hw := wDoCas_tagStep hc hsucc
          refine ⟨hw, fun hlt => ?_⟩
          rw [hw, Nat.mod_eq_of_lt hlt]
          omega
  · intro s' r l h e he hsucc
    unfold wDequeue at h
    cases hloop : wDequeueLoop fuel s with
    | none => rw [hloop] at h; cases h
    | some trip =>
      obtain ⟨s1, l1, r1⟩ := trip
      rw [hloop] at h
      cases r1 with
      | none =>
        simp only [Option.some.injEq, Prod.mk.injEq] at h
        obtain ⟨-, -, hl⟩ := h
        rw [← hl] at he
        have hw := wDequeueLoop_tag fuel s s1 l1 none hloop e he hsucc
        refine ⟨hw, fun hlt => ?_⟩
        rw [hw, Nat.mod_eq_of_lt hlt]
        omega
      | some p =>
        obtain ⟨ret, hi⟩ := p
        simp only [Option.some.injEq, Prod.mk.injEq] at h
        obtain ⟨-, -, hl⟩ := h
        rw [← hl] at he
        have hw := wDequeueLoop_tag fuel s s1 l1 (some (ret, hi)) hloop e he hsucc
        refine ⟨hw, fun hlt => ?_⟩
        rw [hw, Nat.mod_eq_of_lt hlt]
        omega

/-- Instantiation of the amended C3 theorem at a fresh queue with one
enqueue of the value 5 and one dequeue. -/
theorem cas_tag_wrapping_increase_witness :
    (∀ s' l, wEnqueue 1 (mkQueue (0 : Nat)) 5 = some (s', l) →
      ∀ e ∈ l, e.success = true →
        e.desired.m_count = (e.prior.m_count + 1) % uintptrSize ∧
        (e.prior.m_count + 1 < uintptrSize →
          e.prior.m_count < e.desired.m_count)) ∧
    (∀ s' r l, wDequeue 1 (mkQueue (0 : Nat)) = some (s', r, l) →
      ∀ e ∈ l, e.success = true →
        e.desired.m_count = (e.prior.m_count + 1) % uintptrSize ∧
        (e.prior.m_count + 1 < uintptrSize →
          e.prior.m_count < e.desired.m_count)) :=
  cas_tag_wrapping_increase 1 (mkQueue 0) 5

/-- The enqueue step lemma at the loop fuel used by enqueueN. -/
theorem enqueue_canonStep2 {T : Type} [Inhabited T] (vals : List T) (v : T)
    (h : Nat) (h0 : 0 < vals.length) :
    enqueue 2 (canonState vals h) v =
      some (canonState (vals ++ [v]) h,
        [⟨Slot.next (vals.length - 1), ⟨none, 0⟩, ⟨none, 0⟩,
          ⟨some vals.length, 1⟩, true⟩,
         ⟨Slot.tail, ⟨some (vals.length - 1), vals.length - 1⟩,
          ⟨some (vals.length - 1), vals.length - 1⟩,
          ⟨some vals.length, vals.length⟩, true⟩]) :=
  enqueue_canonStep vals v h 1 h0

/-- The dequeue step lemmas at the loop fuel used by drain. -/
theorem dequeue_canonStep2 {T : Type} [Inhabited T] (vals : List T) (h : Nat)
    (hh : h + 1 < vals.length) :
    dequeue 2 (canonState vals h) =
      some (canonState vals (h + 1), some (vals.getD (h + 1) default),
        [⟨Slot.head, ⟨some h, h⟩, ⟨some h, h⟩, ⟨some (h + 1), h + 1⟩, true⟩]) :=
  dequeue_canonStep vals h 1 hh

theorem dequeue_canonStep_empty2 {T : Type} [Inhabited T] (vals : List T)
    (h : Nat) (hh : h + 1 = vals.length) :
    dequeue 2 (canonState vals h) = some (canonState vals h, none, []) :=
  dequeue_canonStep_empty vals h 1 hh

/-- K sequential enqueues on a fresh queue produce the canonical state
over K zeros behind the default sentinel value, with nothing retired. -/
theorem enqueueN_canon (K : Nat) :
    enqueueN K (mkQueue 0) =
      some (canonState (List.replicate (K + 1) 0) 0) := by
  induction K with
  | zero => rfl
  | succ K ih =>
    simp only [enqueueN]
    rw [ih]
    simp only []
    rw [enqueue_canonStep2 (List.replicate (K + 1) 0) 0 0 (by simp)]
    simp only []
    rw [← List.replicate_succ']

/-- Draining a canonical state holding k values behind the sentinel
dequeues all of them and stops on the empty result: exactly the k node
ids h, h+1, ..., h+k-1 are appended to the retire log, and the node
holding the last value remains as the unretired sentinel. -/
theorem drain_canon {T : Type} [Inhabited T] :
    ∀ (k : Nat) (vals : List T) (h : Nat), vals.length = h + k + 1 →
      drain 2 (k + 1) (canonState vals h) = some (canonState vals (h + k)) := by
  intro k
  induction k with
  | zero =>
    intro vals h hlen
    show (match dequeue 2 (canonState vals h) with
      | none => none
      | some (s1, some _, _) => drain 2 0 s1
      | some (s1, none, _) => some s1) = _
    rw [dequeue_canonStep_empty2 vals h (by omega)]
    simp only [Nat.add_zero]
  | succ k ih =>
    intro vals h hlen
    show (match dequeue 2 (canonState vals h) with
      | none => none
      | some (s1, some _, _) => drain 2 (k + 1) s1
      | some (s1, none, _) => some s1) = _
    rw [dequeue_canonStep2 vals h (by omega)]
    simp only []
    rw [ih vals (h + 1) (by omega)]
    have : h + 1 + k = h + (k + 1) := by omega
    rw [this]

/-- Counterexample to C2 at K = 0: draining a freshly constructed queue
through the destructor body retires zero nodes, not K + 1 = 1 — the
sentinel node is never retired. -/
theorem drain_fresh_retires_nothing :
    (drain 2 1 (mkQueue (0 : Nat))).map (fun s => s.retired.length) = some 0 ∧
    ¬ (drain 2 1 (mkQueue (0 : Nat))).map (fun s => s.retired.length) =
        some (0 + 1) := by
  decide

/-- C2 (amended): enqueuing K items on a fresh queue and then running
the destructor drain retires exactly K nodes — ids 0 through K-1, i.e.
the original sentinel plus the first K-1 data nodes — each exactly once;
the node holding the last enqueued value (id K) stays in place as the
head sentinel and is never retired (it leaks). -/
theorem drain_after_K_enqueues (K : Nat) :
    (enqueueN K (mkQueue 0)).bind (drain 2 (K + 1)) =
      some (canonState (List.replicate (K + 1) 0) K) ∧
    (canonState (List.replicate (K + 1) 0) K : QueueState Nat).retired =
      List.range K ∧
    (List.range K).length = K ∧
    (List.range K).Nodup ∧
    (canonState (List.replicate (K + 1) 0) K : QueueState Nat).m_head.m_ptr =
      some K ∧
    K ∉ List.range K := by
  refine ⟨?_, rfl, by simp, List.nodup_range K, rfl, by simp⟩
  rw [enqueueN_canon K]
  have := drain_canon K (List.replicate (K + 1) (0 : Nat)) 0 (by simp)
  rw [Nat.zero_add] at this
  simpa [Option.some_bind] using this

/-- Instantiation of the amended C2 theorem at K = 3. -/
theorem drain_after_K_enqueues_witness :
    (enqueueN 3 (mkQueue 0)).bind (drain 2 4) =
      some (canonState (List.replicate 4 0) 3) ∧
    (canonState (List.replicate 4 0) 3 : QueueState Nat).retired =
      List.range 3 ∧
    (List.range 3).length = 3 ∧
    (List.range 3).Nodup ∧
    (canonState (List.replicate 4 0) 3 : QueueState Nat).m_head.m_ptr =
      some 3 ∧
    3 ∉ List.range 3 :=
  drain_after_K_enqueues 3

/-- An Enqueue arriving at a state whose tail lags one link (the shape
left behind when a best-effort tail CAS was lost) first repairs the lag
through the helping CAS of line 96, then links its node and advances the
tail: three successful CAS events. -/
theorem enqueue_lagStep {T : Type} [Inhabited T] (vals : List T) (v : T)
    (h c fuel : Nat) (hlen : 2 ≤ vals.length) :
    enqueue (fuel + 2) (canonLagState vals h c) v =
      some ({ canonState (vals ++ [v]) h with
                m_tail := ⟨some vals.length, c + 2⟩ },
        [⟨Slot.tail, ⟨some (vals.length - 2), c⟩, ⟨some (vals.length - 2), c⟩,
          ⟨some (vals.length - 1), c + 1⟩, true⟩,
         ⟨Slot.next (vals.length - 1), ⟨none, 0⟩, ⟨none, 0⟩,
          ⟨some vals.length, 1⟩, true⟩,
         ⟨Slot.tail, ⟨some (vals.length - 1), c + 1⟩,
          ⟨some (vals.length - 1), c + 1⟩,
          ⟨some vals.length, c + 1 + 1⟩, true⟩]) := by
  have hlookA : (canonHeap vals ++ [(⟨v, ⟨none, 0⟩⟩ : Node T)])[vals.length - 2]? =
      some ⟨vals.getD (vals.length - 2) default, ⟨some (vals.length - 1), 1⟩⟩ := by
    rw [List.getElem?_append_left (by simp; omega),
        canonHeap_getElem?_lt vals (by omega)]
    simp only [canonNext]
    rw [if_pos (by omega)]
    have hc2 : vals.length - 2 + 1 = vals.length - 1 := by omega
    rw [hc2]
  have hlookB : (canonHeap vals ++ [(⟨v, ⟨none, 0⟩⟩ : Node T)])[vals.length - 1]? =
      some ⟨vals.getD (vals.length - 1) default, ⟨none, 0⟩⟩ := by
    rw [List.getElem?_append_left (by simp; omega),
        canonHeap_getElem?_lt vals (by omega)]
    simp only [canonNext]
    rw [if_neg (by omega)]
  simp only [enqueue, canonLagState, canonState, canonHeap_length, enqueueLoop,
    ptrNe_self, Bool.false_eq_true, if_false, hlookA, hlookB, doCas, readSlot,
    Option.map_some, ptrEq_self, if_true, writeSlot, ite_true]
  simp [canonHeap_snoc vals v (by omega)]
  rw [← List.getD_eq_getElem?_getD]
  exact canonHeap_snoc vals v (by omega)

/-- A Dequeue arriving at a state whose lagging tail coincides with the
head (the case of line 126) first repairs the lag through the helping
CAS of line 127, then retries and completes normally: a successful tail
CAS followed by the successful head CAS. -/
theorem dequeue_lagStep {T : Type} [Inhabited T] (vals : List T)
    (c fuel : Nat) (hlen : 2 ≤ vals.length) :
    dequeue (fuel + 2) (canonLagState vals (vals.length - 2) c) =
      some ({ canonState vals (vals.length - 1) with
                m_tail := ⟨some (vals.length - 1), c + 1⟩ },
        some (vals.getD (vals.length - 1) default),
        [⟨Slot.tail, ⟨some (vals.length - 2), c⟩, ⟨some (vals.length - 2), c⟩,
          ⟨some (vals.length - 1), c + 1⟩, true⟩,
         ⟨Slot.head, ⟨some (vals.length - 2), vals.length - 2⟩,
          ⟨some (vals.length - 2), vals.length - 2⟩,
          ⟨some (vals.length - 1), vals.length - 2 + 1⟩, true⟩]) := by
  have hlookA : (canonHeap vals : List (Node T))[vals.length - 2]? =
      some ⟨vals.getD (vals.length - 2) default, ⟨some (vals.length - 1), 1⟩⟩ := by
    rw [canonHeap_getElem?_lt vals (by omega)]
    simp only [canonNext]
    rw [if_pos (by omega)]
    have hc2 : vals.length - 2 + 1 = vals.length - 1 := by omega
    rw [hc2]
  have hlookB : (canonHeap vals : List (Node T))[vals.length - 1]? =
      some ⟨vals.getD (vals.length - 1) default, ⟨none, 0⟩⟩ := by
    rw [canonHeap_getElem?_lt vals (by omega)]
    simp only [canonNext]
    rw [if_neg (by omega)]
  have heqq : ((some (vals.length - 2) : Option Nat) ==
      some (vals.length - 2)) = true := by simp
  have hneq : ((some (vals.length - 2) : Option Nat) ==
      some (vals.length - 1)) = false := by
    simp only [beq_eq_false_iff_ne, ne_eq, Option.some.injEq]
    omega
  have hc1 : vals.length - 2 + 1 = vals.length - 1 := by omega
  simp only [dequeue, dequeueLoop, canonLagState, canonState, ptrNe_self,
    Bool.false_eq_true, if_false, hlookA, hlookB, heqq, hneq, doCas, readSlot,
    Option.map_some, ptrEq_self, if_true, writeSlot, ite_true, ite_false]
  simp [hc1, List.range_succ]
  rw [← hc1, List.range_succ]

/-- In a state whose heap is a canonical heap, the node holding the last
value is the last node of the list. -/
theorem isLastNode_last {T : Type} [Inhabited T] (s : QueueState T)
    (vals : List T) (hh : s.heap = canonHeap vals) (h0 : 0 < vals.length) :
    isLastNode s (vals.length - 1) = true := by
  simp only [isLastNode, hh]
  rw [canonHeap_getElem?_lt vals (by omega)]
  simp only [canonNext]
  rw [if_neg (by omega)]
  rfl

/-- If the tail denotes the last node, it lags by at most one link. -/
theorem tailLagLeOne_of_lastTail {T : Type} (s : QueueState T) (t : Nat)
    (ht : s.m_tail.m_ptr = some t) (hl : isLastNode s t = true) :
    tailLagLeOne s = true := by
  unfold tailLagLeOne
  rw [ht]
  simp only []
  rw [hl]
  rfl

/-- C7: the tail-advance protocol.  (i) From any sequentially reachable
state, an Enqueue executes exactly two CAS events: the link CAS on a
next slot inside the loop and, after the loop exits, exactly one
best-effort CAS on the tail slot aiming it at the newly allocated node.
(ii) In every sequentially reachable state the tail lags the true last
node by at most one link.  (iii) In a state whose best-effort tail CAS
was lost (tail one link behind), the next Enqueue performs a successful
helping CAS that re-aims the tail at the true last node before linking,
and leaves the tail on the new last node.  (iv) Likewise a Dequeue that
observes head == tail performs the successful helping CAS and completes
with the tail on the true last node. -/
theorem tail_advance_protocol {T : Type} [Inhabited T] (s : QueueState T)
    (hs : SeqReachable s) (vals : List T) (v : T) (h c fuel : Nat)
    (hlen : 2 ≤ vals.length) :
    (∀ fuel2 s' l, enqueue fuel2 s v = some (s', l) →
      ∃ linkE tailE, l = [linkE, tailE] ∧
        (∃ ti, linkE.slot = Slot.next ti) ∧
        tailE.slot = Slot.tail ∧
        tailE.desired.m_ptr = some s.heap.length) ∧
    tailLagLeOne s = true ∧
    (∃ s' l, enqueue (fuel + 2) (canonLagState vals h c) v = some (s', l) ∧
      (∃ e ∈ l, e.slot = Slot.tail ∧ e.success = true ∧
        e.desired.m_ptr = some (vals.length - 1)) ∧
      s'.m_tail.m_ptr = some vals.length ∧
      tailLagLeOne s' = true) ∧
    (∃ s' w l, dequeue (fuel + 2) (canonLagState vals (vals.length - 2) c) =
        some (s', some w, l) ∧
      (∃ e ∈ l, e.slot = Slot.tail ∧ e.success = true ∧
        e.desired.m_ptr = some (vals.length - 1)) ∧
      s'.m_tail.m_ptr = some (vals.length - 1) ∧
      tailLagLeOne s' = true) := by
  obtain ⟨vals0, h0idx, h00, hh0, rfl⟩ := seqReachable_canon hs
  refine ⟨?_, ?_, ?_, ?_⟩
  · intro fuel2 s' l he
    cases fuel2 with
    | zero => simp [enqueue, enqueueLoop] at he
    | succ fuel2 =>
      rw [enqueue_canonStep vals0 v h0idx fuel2 h00] at he
      simp only [Option.some.injEq, Prod.mk.injEq] at he
      obtain ⟨-, hl⟩ := he
      refine ⟨_, _, hl.symm, ⟨vals0.length - 1, rfl⟩, rfl, ?_⟩
      show some vals0.length = some (canonState vals0 h0idx).heap.length
      simp [canonState]
  · exact tailLagLeOne_of_lastTail _ _ rfl (isLastNode_last _ _ rfl h00)
  · refine ⟨_, _, enqueue_lagStep vals v h c fuel hlen,
      ⟨_, List.mem_cons_self _ _, rfl, rfl, rfl⟩, rfl, ?_⟩
    have hlast : ((vals ++ [v]).length - 1) = vals.length := by simp
    have := isLastNode_last
      { canonState (vals ++ [v]) h with
          m_tail := (⟨some vals.length, c + 2⟩ : Pointer) }
      (vals ++ [v]) rfl (by simp)
    rw [hlast] at this
    exact tailLagLeOne_of_lastTail _ _ rfl this
  · refine ⟨_, _, _, dequeue_lagStep vals c fuel hlen,
      ⟨_, List.mem_cons_self _ _, rfl, rfl, rfl⟩, rfl, ?_⟩
    exact tailLagLeOne_of_lastTail _ _ rfl (isLastNode_last _ _ rfl (by omega))

/-- Instantiation of the C7 theorem: the reachable state holding the
value 5, the lag states built over the two values [0, 7]. -/
theorem tail_advance_protocol_witness :
    (∀ fuel2 s' l,
        enqueue fuel2 (canonState [0, 5] 0 : QueueState Nat) 9 = some (s', l) →
      ∃ linkE tailE, l = [linkE, tailE] ∧
        (∃ ti, linkE.slot = Slot.next ti) ∧
        tailE.slot = Slot.tail ∧
        tailE.desired.m_ptr =
          some (canonState [0, 5] 0 : QueueState Nat).heap.length) ∧
    tailLagLeOne (canonState [0, 5] 0 : QueueState Nat) = true ∧
    (∃ s' l, enqueue 2 (canonLagState [0, 7] 0 5 : QueueState Nat) 9 =
        some (s', l) ∧
      (∃ e ∈ l, e.slot = Slot.tail ∧ e.success = true ∧
        e.desired.m_ptr = some ([0, 7].length - 1)) ∧
      s'.m_tail.m_ptr = some [0, 7].length ∧
      tailLagLeOne s' = true) ∧
    (∃ s' w l,
        dequeue 2 (canonLagState [0, 7] ([0, 7].length - 2) 5 : QueueState Nat) =
          some (s', some w, l) ∧
      (∃ e ∈ l, e.slot = Slot.tail ∧ e.success = true ∧
        e.desired.m_ptr = some ([0, 7].length - 1)) ∧
      s'.m_tail.m_ptr = some ([0, 7].length - 1) ∧
      tailLagLeOne s' = true) :=
  tail_advance_protocol _ (SeqReachable.enq SeqReachable.init
    (by decide : enqueue 1 (mkQueue 0) 5 = some (canonState [0, 5] 0,
      [⟨Slot.next 0, ⟨none, 0⟩, ⟨none, 0⟩, ⟨some 1, 1⟩, true⟩,
       ⟨Slot.tail, ⟨some 0, 0⟩, ⟨some 0, 0⟩, ⟨some 1, 1⟩, true⟩])))
    [0, 7] 9 0 5 0 (by decide)

/-- C1: on a fresh queue, sequentially enqueuing 1, 2, 3 and then
dequeuing four times returns 1, then 2, then 3, then the empty
optional. -/
theorem enqueue123_dequeue_order :
    trace123 = some [some 1, some 2, some 3, none] := by
  decide

/-- C9: Pointer equality is structural: operator== holds iff both m_ptr
and m_count agree (i.e. iff the two tagged pointers are equal as
values), and operator!= holds iff operator== does not. -/
theorem pointer_equality_structural (p q : Pointer) :
    (ptrEq p q = true ↔ p.m_ptr = q.m_ptr ∧ p.m_count = q.m_count) ∧
    (ptrNe p q = true ↔ ¬ ptrEq p q = true) := by
  constructor
  · rw [ptrEq_iff]
    cases p
    cases q
    simp [Pointer.mk.injEq]
  · simp [ptrNe]

/-- Instantiation of the C9 theorem at two concrete tagged pointers that
share a node reference but differ in tag. -/
theorem pointer_equality_structural_witness :
    (ptrEq ⟨some 3, 1⟩ ⟨some 3, 2⟩ = true ↔
      (some 3 : Option Nat) = some 3 ∧ (1 : Nat) = 2) ∧
    (ptrNe ⟨some 3, 1⟩ ⟨some 3, 2⟩ = true ↔
      ¬ ptrEq ⟨some 3, 1⟩ ⟨some 3, 2⟩ = true) :=
  pointer_equality_structural ⟨some 3, 1⟩ ⟨some 3, 2⟩

end LFQ
